import Mathlib

/-!
# Verification of the rgeo reverse-geocoding engine

A shallow embedding of the rgeo library (package `rgeo`: `rgeo.go`,
`features.go`) in Lean 4, with theorems checking the natural-language
specification against the code.

Conventions of the embedding:
* Go strings become `String`, Go slices become `List`.
* Planar/geographic coordinates (`geom.Coord`, longitude/latitude pairs)
  become `ℚ × ℚ`; the shoelace and equality tests in the polygon builder use
  only field arithmetic and equality, so rationals model the `float64`
  arithmetic of the source exactly on rational inputs.
* `float64` trigonometry (`math.Sin`) becomes `Real.sin`.
* The external s2 geometry library (shape index, point-containment query,
  closest-edge query, loop cap bounds, polygon wire encoding) and the
  standard-library JSON codec are not part of the repository; wherever a
  claim depends on them they are modelled from the spec, each such
  definition carrying a doc comment starting `Modelled from the spec:`.
* Fallible Go functions returning `(T, error)` become `T × Option Err`
  when the pairing matters, and `Except Err T` otherwise.
-/

/-! ## Location (rgeo.go) -/

/-- The `Location` struct: the ten string metadata fields attached to every
shape. Empty string means absent, exactly as in the source. -/
@[ext]
structure Location where
  Country : String
  CountryLong : String
  CountryCode2 : String
  CountryCode3 : String
  Continent : String
  Region : String
  SubRegion : String
  Province : String
  ProvinceCode : String
  City : String
deriving DecidableEq, Repr

/-- The Go zero value `Location{}`: all ten fields empty. -/
def Location.empty : Location :=
  ⟨"", "", "", "", "", "", "", "", "", ""⟩

/-- `firstNonEmpty` from rgeo.go: the first non-empty string of the list,
or `""` when there is none. -/
def firstNonEmpty : List String → String
  | [] => ""
  | s :: rest => if s ≠ "" then s else firstNonEmpty rest

/-- A coordinate as the queries see it: a (longitude, latitude) pair. -/
abbrev Coord := ℚ × ℚ

/-- An indexed shape as stored in the s2 shape index (`shape` in rgeo.go:
an `s2.Shape` together with its `Location`). Modelled from the spec: the
geometric side of an s2 shape is kept at the library boundary as its
interior-membership and boundary-membership tests. -/
structure S2Shape where
  interior : Coord → Bool
  boundary : Coord → Bool
  loc : Location

/-- One step of the accumulation loop in `combineLocations`: every field of
the accumulator is replaced by `firstNonEmpty` of the accumulator's value
and the next shape's value. -/
def combineStep (l : Location) (loc : Location) : Location :=
  { Country := firstNonEmpty [l.Country, loc.Country]
    CountryLong := firstNonEmpty [l.CountryLong, loc.CountryLong]
    CountryCode2 := firstNonEmpty [l.CountryCode2, loc.CountryCode2]
    CountryCode3 := firstNonEmpty [l.CountryCode3, loc.CountryCode3]
    Continent := firstNonEmpty [l.Continent, loc.Continent]
    Region := firstNonEmpty [l.Region, loc.Region]
    SubRegion := firstNonEmpty [l.SubRegion, loc.SubRegion]
    Province := firstNonEmpty [l.Province, loc.Province]
    ProvinceCode := firstNonEmpty [l.ProvinceCode, loc.ProvinceCode]
    City := firstNonEmpty [l.City, loc.City] }

/-- `combineLocations` from rgeo.go: fold the shapes' Locations in query
order, starting from the zero `Location`, field-by-field through
`firstNonEmpty`. -/
def combineLocations (shapes : List S2Shape) : Location :=
  shapes.foldl (fun l s => combineStep l s.loc) Location.empty

/-- The spec's combination rule, stated as written: each field
independently takes the first non-empty value across the matched shapes in
the order returned by the index query. -/
def combineLocationsSpec (shapes : List S2Shape) : Location :=
  { Country := firstNonEmpty (shapes.map fun s => s.loc.Country)
    CountryLong := firstNonEmpty (shapes.map fun s => s.loc.CountryLong)
    CountryCode2 := firstNonEmpty (shapes.map fun s => s.loc.CountryCode2)
    CountryCode3 := firstNonEmpty (shapes.map fun s => s.loc.CountryCode3)
    Continent := firstNonEmpty (shapes.map fun s => s.loc.Continent)
    Region := firstNonEmpty (shapes.map fun s => s.loc.Region)
    SubRegion := firstNonEmpty (shapes.map fun s => s.loc.SubRegion)
    Province := firstNonEmpty (shapes.map fun s => s.loc.Province)
    ProvinceCode := firstNonEmpty (shapes.map fun s => s.loc.ProvinceCode)
    City := firstNonEmpty (shapes.map fun s => s.loc.City) }

theorem firstNonEmpty_singleton (s : String) : firstNonEmpty [s] = s := by
  by_cases h : s = "" <;> simp [firstNonEmpty, h]

theorem firstNonEmpty_pair_cons (x y : String) (rest : List String) :
    firstNonEmpty (firstNonEmpty [x, y] :: rest) =
      firstNonEmpty (x :: y :: rest) := by
  by_cases hx : x = ""
  · by_cases hy : y = "" <;> simp [firstNonEmpty, hx, hy]
  · simp [firstNonEmpty, hx]

/-- The fold computing `combineLocations`, observed through one field
accessor: it is `firstNonEmpty` over the accumulator's field followed by
the shapes' fields. -/
theorem foldl_combine_field (f : Location → String)
    (hf : ∀ a loc, f (combineStep a loc) = firstNonEmpty [f a, f loc]) :
    ∀ (shapes : List S2Shape) (a : Location),
      f (shapes.foldl (fun l s => combineStep l s.loc) a) =
        firstNonEmpty (f a :: shapes.map fun s => f s.loc) := by
  intro shapes
  induction shapes with
  | nil => intro a; simp [firstNonEmpty_singleton]
  | cons s rest ih =>
      intro a
      simp only [List.foldl_cons, List.map_cons]
      rw [ih, hf, firstNonEmpty_pair_cons]

theorem firstNonEmpty_empty_cons (l : List String) :
    firstNonEmpty ("" :: l) = firstNonEmpty l := by
  simp [firstNonEmpty]

/-- C2: for every list of matched shapes (in the order returned by the
index query), the combined `Location` is computed field-by-field
independently: each of the ten string fields is the first non-empty value
among the shapes' values for that field, so a later shape's empty field
never overwrites an earlier non-empty value. -/
theorem combineLocations_eq_spec (shapes : List S2Shape) :
    combineLocations shapes = combineLocationsSpec shapes := by
  apply Location.ext <;> simp only [combineLocations, combineLocationsSpec]
  · rw [foldl_combine_field (fun l => l.Country) (fun a loc => rfl)]
    exact firstNonEmpty_empty_cons _
  · rw [foldl_combine_field (fun l => l.CountryLong) (fun a loc => rfl)]
    exact firstNonEmpty_empty_cons _
  · rw [foldl_combine_field (fun l => l.CountryCode2) (fun a loc => rfl)]
    exact firstNonEmpty_empty_cons _
  · rw [foldl_combine_field (fun l => l.CountryCode3) (fun a loc => rfl)]
    exact firstNonEmpty_empty_cons _
  · rw [foldl_combine_field (fun l => l.Continent) (fun a loc => rfl)]
    exact firstNonEmpty_empty_cons _
  · rw [foldl_combine_field (fun l => l.Region) (fun a loc => rfl)]
    exact firstNonEmpty_empty_cons _
  · rw [foldl_combine_field (fun l => l.SubRegion) (fun a loc => rfl)]
    exact firstNonEmpty_empty_cons _
  · rw [foldl_combine_field (fun l => l.Province) (fun a loc => rfl)]
    exact firstNonEmpty_empty_cons _
  · rw [foldl_combine_field (fun l => l.ProvinceCode) (fun a loc => rfl)]
    exact firstNonEmpty_empty_cons _
  · rw [foldl_combine_field (fun l => l.City) (fun a loc => rfl)]
    exact firstNonEmpty_empty_cons _

/-! ## Reverse-geocode engine (rgeo.go) -/

/-- The one error the engine raises: `ErrLocationNotFound`. -/
inductive RgeoErr
  | locationNotFound
deriving DecidableEq, Repr

/-- The `Rgeo` state: the shapes held by the s2 shape index, in insertion
order, plus the closest-edge query. Modelled from the spec: the edge query
(`makeEdgeQuery().FindEdges`) is kept at the library boundary as a function
giving the ids of the shapes whose edges lie within the configured distance
limit of the query point, at most one result. An s2 shape index assigns ids
in insertion order, so looking a shape up by id is list indexing. -/
structure Rgeo where
  shapes : List S2Shape
  findEdges : Coord → List Nat

/-- Modelled from the spec: `ContainingShapes(point)` under
`s2.VertexModelOpen` returns every inserted shape whose interior contains
the point — the open boundary model, under which points exactly on a
shape's edge or vertex are not contained — in index order. -/
def ContainingShapes (r : Rgeo) (p : Coord) : List S2Shape :=
  r.shapes.filter fun s => s.interior p

/-- `ReverseGeocode` from rgeo.go: query the containing shapes; none means
`ErrLocationNotFound`, otherwise combine their Locations. The Go pair
`(Location, error)` is kept as a pair. -/
def ReverseGeocode (r : Rgeo) (p : Coord) : Location × Option RgeoErr :=
  let res := ContainingShapes r p
  if res.length == 0 then (Location.empty, some .locationNotFound)
  else (combineLocations res, none)

/-- `ReverseGeocodeSnapping` from rgeo.go: try `ReverseGeocode` first; on
success return its result; on an error other than `ErrLocationNotFound`
propagate it; on `ErrLocationNotFound` fall back to the closest-edge query,
failing with `ErrLocationNotFound` when it returns no edge or when the id
lookup yields no shape, and otherwise combining over that single shape. -/
def ReverseGeocodeSnapping (r : Rgeo) (p : Coord) : Location × Option RgeoErr :=
  match ReverseGeocode r p with
  | (loc, none) => (loc, none)
  | (_, some e) =>
    if e ≠ RgeoErr.locationNotFound then (Location.empty, some e)
    else
      match r.findEdges p with
      | [] => (Location.empty, some .locationNotFound)
      | id :: _ =>
        match r.shapes[id]? with
        | none => (Location.empty, some .locationNotFound)
        | some s => (combineLocations [s], none)

theorem combineLocations_singleton (s : S2Shape) :
    combineLocations [s] = s.loc := by
  apply Location.ext <;>
    simp [combineLocations, combineStep, Location.empty,
      firstNonEmpty_empty_cons, firstNonEmpty_singleton]

/-- C4: `ReverseGeocode` fails with `ErrLocationNotFound` exactly when the
set of containing shapes is empty, and its Location result is the
combination of the containing shapes' Locations (which is the zero
`Location` in the error case, since combining no shapes yields it). -/
theorem reverseGeocode_notFound_iff (r : Rgeo) (p : Coord) :
    ((ReverseGeocode r p).2 = some RgeoErr.locationNotFound ↔
      ContainingShapes r p = []) ∧
    (ReverseGeocode r p).1 = combineLocations (ContainingShapes r p) := by
  unfold ReverseGeocode
  rcases h : ContainingShapes r p with _ | ⟨s, rest⟩ <;>
    simp [combineLocations, Location.empty]

/-- C3: `ReverseGeocodeSnapping` first attempts `ReverseGeocode`; a success
is returned unchanged; on `ErrLocationNotFound` it falls back to the
closest-edge query, returning `ErrLocationNotFound` when that yields no
shape (no edge within the limit, or no shape for the returned id) and
otherwise returning exactly the single matched shape's own Location (the
combination over one shape). -/
theorem reverseGeocodeSnapping_spec (r : Rgeo) (p : Coord) :
    ReverseGeocodeSnapping r p =
      match ReverseGeocode r p with
      | (loc, none) => (loc, none)
      | (_, some _) =>
        match r.findEdges p with
        | [] => (Location.empty, some RgeoErr.locationNotFound)
        | id :: _ =>
          match r.shapes[id]? with
          | none => (Location.empty, some RgeoErr.locationNotFound)
          | some s => (s.loc, none) := by
  unfold ReverseGeocodeSnapping
  rcases ReverseGeocode r p with ⟨loc, _ | e⟩
  · rfl
  · cases e
    rcases r.findEdges p with _ | ⟨id, rest⟩
    · rfl
    · simp only [ne_eq, not_true_eq_false, if_false, reduceIte]
      rcases r.shapes[id]? with _ | s
      · rfl
      · simp [combineLocations_singleton]

/-- C9: under the open boundary model, a query point lying exactly on a
shape's edge or vertex (a boundary point, which is not an interior point)
is not reported as contained by that shape; in particular a point on the
shared border of two adjacent shapes is contained by neither. -/
theorem boundary_point_not_contained (r : Rgeo) (p : Coord) (s : S2Shape)
    (hdisj : ∀ q, s.boundary q = true → s.interior q = false)
    (hb : s.boundary p = true) :
    s ∉ ContainingShapes r p := by
  intro hmem
  rw [ContainingShapes, List.mem_filter] at hmem
  rw [hdisj p hb] at hmem
  exact Bool.false_ne_true hmem.2

/-- A concrete instance of C9: two adjacent rectangles meeting along the
line `lon = 1`; the point `(1, 0)` on the shared border is contained by
neither shape. -/
theorem boundary_point_not_contained_witness :
    (⟨fun q => decide (q.1 < 1), fun q => decide (q.1 = 1),
        Location.empty⟩ : S2Shape) ∉
      ContainingShapes
        ⟨[⟨fun q => decide (q.1 < 1), fun q => decide (q.1 = 1),
            Location.empty⟩,
          ⟨fun q => decide (1 < q.1), fun q => decide (q.1 = 1),
            Location.empty⟩], fun _ => []⟩ ((1 : ℚ), (0 : ℚ)) := by
  apply boundary_point_not_contained
  · intro q h
    simp only [decide_eq_true_eq] at h
    simp [h]
  · decide

/-- C10: whenever `ReverseGeocode` or `ReverseGeocodeSnapping` carries an
error, the Location returned alongside it is the zero `Location`: for both
operations, either the error component is `none` or the Location component
is `Location.empty`. -/
theorem error_returns_empty_location (r : Rgeo) (p : Coord) :
    ((ReverseGeocode r p).2 = none ∨ (ReverseGeocode r p).1 = Location.empty) ∧
    ((ReverseGeocodeSnapping r p).2 = none ∨
      (ReverseGeocodeSnapping r p).1 = Location.empty) := by
  constructor
  · unfold ReverseGeocode
    rcases ContainingShapes r p with _ | ⟨s, rest⟩ <;> simp
  · rw [reverseGeocodeSnapping_spec]
    rcases ReverseGeocode r p with ⟨loc, _ | e⟩
    · simp
    · rcases r.findEdges p with _ | ⟨id, rest⟩
      · simp
      · cases hs : r.shapes[id]? <;> simp [hs]

/-! ## Polygon builder (rgeo.go) -/

/-- `isClockwise` from rgeo.go: the planar shoelace sum
`Σ (x2 − x1) * (y1 + y2)` over consecutive coordinate pairs of the ring
(wrapping around), positive meaning clockwise in the planar
approximation. -/
def isClockwise (r : List Coord) : Bool :=
  let n := r.length
  let a := (List.range n).foldl (fun a i =>
    let p1 := r.getD i ((0 : ℚ), (0 : ℚ))
    let p2 := r.getD ((i + 1) % n) ((0 : ℚ), (0 : ℚ))
    a + (p2.1 - p1.1) * (p1.2 + p2.2)) (0 : ℚ)
  decide (0 < a)

/-- `loopFromRing` from rgeo.go: drop the repeated closing coordinate and
take the ring's vertices either in source order or, when `reverse` is set,
from index `n − 1` downwards. -/
def loopFromRing (r : List Coord) (reverse : Bool) : List Coord :=
  let n := r.length
  (List.range (n - 1)).map fun i =>
    if reverse then r.getD (n - 1 - i) ((0 : ℚ), (0 : ℚ))
    else r.getD i ((0 : ℚ), (0 : ℚ))

/-- Modelled from the spec: `s2.Loop.Invert` replaces a loop by its
complement on the sphere, reversing its vertex order. -/
def invertLoop (l : List Coord) : List Coord := l.reverse

/-- The geometry errors of the polygon builder: `InvalidGeometry` for a
ring with fewer than 4 points, `InvalidGeometry` for an unclosed ring, and
`UnsupportedGeometry` for a non-polygonal input. -/
inductive GeomError
  | ringTooShort
  | ringNotClosed
  | needsPolygon
deriving DecidableEq, Repr

/-- `loopSliceFromPolygon` from rgeo.go, parametrized by the bounding-cap
radius (in degrees). Modelled from the spec: the cap radius of a loop —
the angular radius of its smallest enclosing spherical circle — is
computed by the external s2 library (`l.CapBound().Radius().Degrees()`),
so the construction takes it as a function `capRadiusDeg`. Each ring must
have at least 4 coordinates and equal first and last coordinates; the loop
is built reversed when the shoelace sum is positive, and inverted after
construction when its cap radius exceeds 90 degrees. -/
def loopSliceFromPolygon (capRadiusDeg : List Coord → ℚ) :
    List (List Coord) → Except GeomError (List (List Coord))
  | [] => .ok []
  | r :: rest =>
    if r.length < 4 then .error .ringTooShort
    else if r.getD 0 ((0 : ℚ), (0 : ℚ)) ≠ r.getD (r.length - 1) ((0 : ℚ), (0 : ℚ)) then
      .error .ringNotClosed
    else
      let l := loopFromRing r (isClockwise r)
      let l2 := if capRadiusDeg l > 90 then invertLoop l else l
      match loopSliceFromPolygon capRadiusDeg rest with
      | .error e => .error e
      | .ok loops => .ok (l2 :: loops)

/-- Building with `reverse` set walks the ring from its closing coordinate
backwards: the result is the reverse of the ring without its first
coordinate (one full traversal of the closed ring in opposite order). -/
theorem loopFromRing_reverse_eq (r : List Coord) :
    loopFromRing r true = (r.drop 1).reverse := by
  apply List.ext_getElem
  · simp [loopFromRing]
  · intro i h1 h2
    simp only [loopFromRing, List.length_map, List.length_range] at h1
    simp only [loopFromRing, List.getElem_map, List.getElem_range, if_true]
    rw [List.getElem_reverse]
    rw [List.getElem_drop]
    rw [List.getD_eq_getElem _ _ (by omega)]
    congr 1
    simp only [List.length_drop]
    omega

/-- Building without `reverse` keeps the ring's order, dropping only the
repeated closing coordinate. -/
theorem loopFromRing_forward_eq (r : List Coord) :
    loopFromRing r false = r.dropLast := by
  apply List.ext_getElem
  · simp [loopFromRing]
  · intro i h1 h2
    simp only [loopFromRing, List.length_map, List.length_range] at h1
    simp only [loopFromRing, List.getElem_map, List.getElem_range,
      Bool.false_eq_true, if_false]
    rw [List.getElem_dropLast]
    exact List.getD_eq_getElem _ _ (by omega)

/-- C5: the polygon builder accepts an input exactly when every ring has
at least 4 coordinates and equal first and last coordinates, and every
rejection is one of the two `InvalidGeometry` conditions (ring too short,
ring not closed). -/
theorem loopSliceFromPolygon_checks (capR : List Coord → ℚ)
    (rings : List (List Coord)) :
    ((∃ loops, loopSliceFromPolygon capR rings = .ok loops) ↔
      ∀ r ∈ rings, 4 ≤ r.length ∧
        r.getD 0 ((0 : ℚ), (0 : ℚ)) = r.getD (r.length - 1) ((0 : ℚ), (0 : ℚ))) ∧
    (∀ e, loopSliceFromPolygon capR rings = .error e →
      e = GeomError.ringTooShort ∨ e = GeomError.ringNotClosed) := by
  induction rings with
  | nil =>
      constructor
      · constructor
        · intro _ r hr; exact absurd hr (List.not_mem_nil r)
        · intro _; exact ⟨[], rfl⟩
      · intro e he; simp [loopSliceFromPolygon] at he
  | cons r rest ih =>
      simp only [loopSliceFromPolygon]
      by_cases h4 : r.length < 4
      · simp only [h4, if_true]
        constructor
        · constructor
          · rintro ⟨loops, hl⟩; cases hl
          · intro hall
            exact absurd (hall r (List.mem_cons_self r rest)).1 (by omega)
        · rintro e he
          cases he
          exact Or.inl rfl
      · simp only [h4, if_false]
        by_cases hc : r.getD 0 ((0 : ℚ), (0 : ℚ)) = r.getD (r.length - 1) ((0 : ℚ), (0 : ℚ))
        · simp only [hc, ne_eq, not_true_eq_false, if_false]
          cases hrec : loopSliceFromPolygon capR rest with
          | error e =>
              constructor
              · constructor
                · rintro ⟨loops, hl⟩; cases hl
                · intro hall
                  have := (ih.1.mpr fun q hq => hall q (List.mem_cons_of_mem r hq))
                  rcases this with ⟨loops, hl⟩
                  rw [hrec] at hl; cases hl
              · rintro e' he'
                cases he'
                exact ih.2 e hrec
          | ok loops =>
              constructor
              · constructor
                · intro _ q hq
                  rcases List.mem_cons.mp hq with rfl | hq'
                  · exact ⟨by omega, hc⟩
                  · exact (ih.1.mp ⟨loops, hrec⟩) q hq'
                · intro _; exact ⟨_, rfl⟩
              · rintro e' he'
                cases he'
        · simp only [hc, ne_eq, not_false_eq_true, if_true]
          constructor
          · constructor
            · rintro ⟨loops, hl⟩; cases hl
            · intro hall
              exact absurd (hall r (List.mem_cons_self r rest)).2 hc
          · rintro e he
            cases he
            exact Or.inr rfl

/-- C6: for every accepted input, each produced loop comes from its ring
by first building with vertex order reversed exactly when the planar
shoelace sum is positive (`isClockwise`), then inverting when the bounding
cap's radius exceeds 90 degrees — so, given that inverting complements the
cap radius about 180 degrees, every loop of the resulting polygon has cap
radius at most 90 degrees. -/
theorem loopSliceFromPolygon_orientation (capR : List Coord → ℚ)
    (hinv : ∀ l, capR (invertLoop l) = 180 - capR l)
    (rings loops : List (List Coord))
    (h : loopSliceFromPolygon capR rings = .ok loops) :
    loops.length = rings.length ∧
    ∀ i, i < rings.length →
      (isClockwise (rings.getD i []) = true →
        loopFromRing (rings.getD i []) (isClockwise (rings.getD i [])) =
          ((rings.getD i []).drop 1).reverse) ∧
      (isClockwise (rings.getD i []) = false →
        loopFromRing (rings.getD i []) (isClockwise (rings.getD i [])) =
          (rings.getD i []).dropLast) ∧
      (loops.getD i [] =
          loopFromRing (rings.getD i []) (isClockwise (rings.getD i [])) ∨
        loops.getD i [] =
          invertLoop (loopFromRing (rings.getD i []) (isClockwise (rings.getD i [])))) ∧
      capR (loops.getD i []) ≤ 90 := by
  induction rings generalizing loops with
  | nil =>
      cases h
      exact ⟨rfl, fun i hi => absurd hi (by simp)⟩
  | cons r rest ih =>
      rw [loopSliceFromPolygon] at h
      by_cases h4 : r.length < 4
      · rw [if_pos h4] at h; cases h
      rw [if_neg h4] at h
      by_cases hc : r.getD 0 ((0 : ℚ), (0 : ℚ)) = r.getD (r.length - 1) ((0 : ℚ), (0 : ℚ))
      case neg => rw [if_pos hc] at h; cases h
      rw [if_neg (by simpa using hc)] at h
      cases hrec : loopSliceFromPolygon capR rest with
      | error e => rw [hrec] at h; cases h
      | ok loops' =>
          rw [hrec] at h
          simp only [Except.ok.injEq] at h
          subst h
          obtain ⟨ihlen, ihspec⟩ := ih loops' hrec
          refine ⟨by simp [ihlen], ?_⟩
          intro i hi
          cases i with
          | zero =>
              simp only [List.getD_cons_zero]
              refine ⟨fun hcw => by rw [hcw]; exact loopFromRing_reverse_eq r,
                fun hcw => by rw [hcw]; exact loopFromRing_forward_eq r, ?_, ?_⟩
              · by_cases hgt : capR (loopFromRing r (isClockwise r)) > 90
                · rw [if_pos hgt]; exact Or.inr rfl
                · rw [if_neg hgt]; exact Or.inl rfl
              · by_cases hgt : capR (loopFromRing r (isClockwise r)) > 90
                · rw [if_pos hgt, hinv]; linarith
                · rw [if_neg hgt]; linarith
          | succ j =>
              simp only [List.getD_cons_succ]
              exact ihspec j (by simpa using hi)

/-- A concrete instance of C6: a unit square ring, built with the constant
cap radius 90 (which satisfies the inversion law), yields one loop per
ring. -/
theorem loopSliceFromPolygon_orientation_witness :
    ([[((0 : ℚ), (0 : ℚ)), ((1 : ℚ), (0 : ℚ)), ((1 : ℚ), (1 : ℚ))]] :
        List (List Coord)).length =
      ([[((0 : ℚ), (0 : ℚ)), ((1 : ℚ), (0 : ℚ)), ((1 : ℚ), (1 : ℚ)),
          ((0 : ℚ), (0 : ℚ))]] : List (List Coord)).length :=
  (loopSliceFromPolygon_orientation (fun _ => 90)
    (fun l => by norm_num)
    [[((0 : ℚ), (0 : ℚ)), ((1 : ℚ), (0 : ℚ)), ((1 : ℚ), (1 : ℚ)),
      ((0 : ℚ), (0 : ℚ))]]
    [[((0 : ℚ), (0 : ℚ)), ((1 : ℚ), (0 : ℚ)), ((1 : ℚ), (1 : ℚ))]]
    (by with_unfolding_all rfl)).1

/-! ## Snapping distance (rgeo.go, `SetSnappingDistanceCustom`) -/

/-- The options handed to the closest-edge query by
`SetSnappingDistanceCustom`: at most one result, and a distance limit.
The limit is recorded here as the angle (in radians) that the source
passes to the library's chord-angle conversion
(`s1.ChordAngleFromAngle(...).Successor()`); the conversion and the
one-ulp `Successor` relaxation are strictly increasing library steps
applied to this angle. -/
structure EdgeQueryOptions where
  maxResults : Nat
  distanceLimitAngle : ℝ

/-- `SetSnappingDistanceCustom` from rgeo.go: the angle installed as the
distance limit is `math.Sin(d / radius)` — the sine, not the arcsine, of
the ratio. -/
noncomputable def SetSnappingDistanceCustom (d radius : ℝ) : EdgeQueryOptions :=
  { maxResults := 1, distanceLimitAngle := Real.sin (d / radius) }

/-- The angular threshold as the spec states it: `asin(d / R)`. -/
noncomputable def specSnappingAngle (d R : ℝ) : ℝ := Real.arcsin (d / R)

/-- C1 fails on the code: at `d = R = 1` the installed angular threshold
is `sin 1 < 1`, while the spec's `asin(1) = π/2 > 1`; the two thresholds
differ, so the angle handed to the chordal conversion is not `asin(d/R)`. -/
theorem setSnappingDistance_ne_spec :
    (SetSnappingDistanceCustom 1 1).distanceLimitAngle ≠ specSnappingAngle 1 1 := by
  unfold SetSnappingDistanceCustom specSnappingAngle
  simp only [div_one]
  have h1 : Real.sin 1 < 1 := Real.sin_lt one_pos
  have h2 : Real.arcsin 1 = Real.pi / 2 := Real.arcsin_one
  have h3 : (3 : ℝ) < Real.pi := Real.pi_gt_three
  intro heq
  rw [h2] at heq
  linarith

/-- C1 as amended: for every snap distance `0 ≤ d ≤ R` and sphere radius
`R > 0`, the angular threshold installed for nearest-edge queries is
`sin(d / R)` (then converted to a chordal bound and relaxed by one unit of
precision by the library); this threshold never exceeds the spec's claimed
`asin(d / R)`. -/
theorem setSnappingDistance_installs_sin (d R : ℝ) (hR : 0 < R) (hd : 0 ≤ d)
    (hdR : d ≤ R) :
    (SetSnappingDistanceCustom d R).distanceLimitAngle = Real.sin (d / R) ∧
    (SetSnappingDistanceCustom d R).distanceLimitAngle ≤ specSnappingAngle d R := by
  refine ⟨rfl, ?_⟩
  unfold SetSnappingDistanceCustom specSnappingAngle
  set x := d / R with hx
  have hx0 : 0 ≤ x := div_nonneg hd (le_of_lt hR)
  have hx1 : x ≤ 1 := (div_le_one hR).mpr hdR
  have hsin : Real.sin x ≤ x := Real.sin_le hx0
  have harc : x ≤ Real.arcsin x := by
    have hy0 : 0 ≤ Real.arcsin x := Real.arcsin_nonneg.mpr hx0
    have := Real.sin_arcsin (by linarith) hx1
    calc x = Real.sin (Real.arcsin x) := this.symm
      _ ≤ Real.arcsin x := Real.sin_le hy0
  exact le_trans hsin harc

/-- A concrete instance of the amended C1, at `d = 1`, `R = 2`. -/
theorem setSnappingDistance_installs_sin_witness :
    (SetSnappingDistanceCustom 1 2).distanceLimitAngle = Real.sin (1 / 2) ∧
    (SetSnappingDistanceCustom 1 2).distanceLimitAngle ≤ specSnappingAngle 1 2 :=
  setSnappingDistance_installs_sin 1 2 two_pos zero_le_one one_le_two

/-! ## Feature codec (features.go) -/

/-- Bytes of the persisted stream. The framing bytes produced by the
source are base-256 digits; payload bytes come from the modelled
location/polygon codecs. -/
abbrev Byte := Nat

/-- `binary.Write(w, binary.LittleEndian, uint32(n))`: the four
little-endian base-256 digits of `n`, truncating at `2 ^ 32` exactly as
the `uint32` conversion does. -/
def le32 (n : Nat) : List Byte :=
  [n % 256, n / 256 % 256, n / 2 ^ 16 % 256, n / 2 ^ 24 % 256]

/-- The I/O-level read errors: `io.EOF`, `io.ErrUnexpectedEOF`, and any
other (non-EOF) decode failure. -/
inductive IOErr
  | eof
  | unexpEOF
  | badData
deriving DecidableEq, Repr

/-- `binary.Read` of a little-endian `uint32`: `io.EOF` when the source
is empty, `io.ErrUnexpectedEOF` when it holds one to three bytes,
otherwise the value and the remaining bytes. -/
def readU32 : List Byte → Except IOErr (Nat × List Byte)
  | [] => .error .eof
  | b0 :: b1 :: b2 :: b3 :: rest =>
      .ok (b0 + 256 * b1 + 2 ^ 16 * b2 + 2 ^ 24 * b3, rest)
  | _ => .error .unexpEOF

/-- `io.ReadFull` into a buffer of length `n`: immediate success for
`n = 0`, `io.EOF` when no byte can be read, `io.ErrUnexpectedEOF` when
only some can, otherwise the `n` bytes and the remainder. -/
def readFull (n : Nat) (bs : List Byte) : Except IOErr (List Byte × List Byte) :=
  if n = 0 then .ok ([], bs)
  else if bs.isEmpty then .error .eof
  else if bs.length < n then .error .unexpEOF
  else .ok (bs.take n, bs.drop n)

/-- `unexpectedEOF` from features.go: converts `io.EOF` into
`io.ErrUnexpectedEOF` and leaves every other error unchanged. -/
def unexpectedEOF (e : IOErr) : IOErr :=
  if e = .eof then .unexpEOF else e

/-- Modelled from the spec: one string of the compact structured-text
location record — its character count followed by its characters. -/
def encodeString (s : String) : List Byte :=
  s.data.length :: s.data.map Char.toNat

/-- Modelled from the spec: decode one length-prefixed string, returning
the remainder of the buffer. -/
def decodeString : List Byte → Option (String × List Byte)
  | [] => none
  | n :: rest =>
    if rest.length < n then none
    else some (String.mk ((rest.take n).map Char.ofNat), rest.drop n)

/-- Modelled from the spec: `json.Marshal` of a `Location` — a compact
structured-text record of the ten string fields; modelled as the ten
length-prefixed fields in declaration order (any injective
self-delimiting encoding serves the claims). -/
def jsonMarshalLocation (loc : Location) : List Byte :=
  encodeString loc.Country ++ encodeString loc.CountryLong ++
  encodeString loc.CountryCode2 ++ encodeString loc.CountryCode3 ++
  encodeString loc.Continent ++ encodeString loc.Region ++
  encodeString loc.SubRegion ++ encodeString loc.Province ++
  encodeString loc.ProvinceCode ++ encodeString loc.City

/-- The ten fields of the modelled location record, in order. -/
def decodeLocationFields (bs : List Byte) : Option (Location × List Byte) := do
  let (country, bs) ← decodeString bs
  let (countryLong, bs) ← decodeString bs
  let (cc2, bs) ← decodeString bs
  let (cc3, bs) ← decodeString bs
  let (continent, bs) ← decodeString bs
  let (region, bs) ← decodeString bs
  let (subRegion, bs) ← decodeString bs
  let (province, bs) ← decodeString bs
  let (provinceCode, bs) ← decodeString bs
  let (city, bs) ← decodeString bs
  some (⟨country, countryLong, cc2, cc3, continent, region, subRegion,
    province, provinceCode, city⟩, bs)

/-- Modelled from the spec: `json.Unmarshal` of a `Location` record; the
buffer must parse completely, and a failed parse is a non-EOF decode
error. -/
def jsonUnmarshalLocation (bs : List Byte) : Except IOErr Location :=
  match decodeLocationFields bs with
  | some (loc, []) => .ok loc
  | _ => .error .badData

/-- Sign byte and magnitude of an integer. -/
def encodeInt (i : ℤ) : List Byte :=
  [if i < 0 then 1 else 0, i.natAbs]

/-- Decode a sign byte and magnitude. -/
def decodeInt : List Byte → Option (ℤ × List Byte)
  | sgn :: m :: rest => some (if sgn = 1 then -(m : ℤ) else (m : ℤ), rest)
  | _ => none

/-- A rational as numerator then denominator. -/
def encodeRat (q : ℚ) : List Byte :=
  encodeInt q.num ++ [q.den]

/-- Decode a numerator and denominator. -/
def decodeRat (bs : List Byte) : Option (ℚ × List Byte) := do
  let (n, bs) ← decodeInt bs
  match bs with
  | d :: rest => some (mkRat n d, rest)
  | [] => none

/-- A vertex as its two coordinates. -/
def encodeCoord (c : Coord) : List Byte :=
  encodeRat c.1 ++ encodeRat c.2

/-- Decode a vertex. -/
def decodeCoord (bs : List Byte) : Option (Coord × List Byte) := do
  let (x, bs) ← decodeRat bs
  let (y, bs) ← decodeRat bs
  some ((x, y), bs)

/-- Concatenate the encodings of the elements, in order. -/
def encodeListBy {α : Type} (enc : α → List Byte) : List α → List Byte
  | [] => []
  | x :: xs => enc x ++ encodeListBy enc xs

/-- A count followed by the elements back to back. -/
def encodeCounted {α : Type} (enc : α → List Byte) (xs : List α) : List Byte :=
  xs.length :: encodeListBy enc xs

/-- Decode exactly `n` consecutive elements, threading the remainder. -/
def decodeN {α : Type} (dec : List Byte → Option (α × List Byte)) :
    Nat → List Byte → Option (List α × List Byte)
  | 0, bs => some ([], bs)
  | n + 1, bs => do
    let (x, bs) ← dec bs
    let (xs, bs2) ← decodeN dec n bs
    some (x :: xs, bs2)

/-- Decode a count-prefixed element sequence. -/
def decodeCounted {α : Type} (dec : List Byte → Option (α × List Byte)) :
    List Byte → Option (List α × List Byte)
  | [] => none
  | n :: bs => decodeN dec n bs

/-- Modelled from the spec: `s2.Polygon.Encode` — the polygon's loops in
order, each loop its vertices in order, count-prefixed; an injective
internal loop/point encoding. -/
def s2PolygonEncode (p : List (List Coord)) : List Byte :=
  encodeCounted (encodeCounted encodeCoord) p

/-- Modelled from the spec: `s2.Polygon.Decode`; the buffer must parse
completely, and a failed parse is a non-EOF decode error. -/
def s2PolygonDecode (bs : List Byte) : Except IOErr (List (List Coord)) :=
  match decodeCounted (decodeCounted decodeCoord) bs with
  | some (p, []) => .ok p
  | _ => .error .badData

/-- The `Feature` struct from features.go: a `Location` and a polygon
(the polygon's loops with their vertex lists, orientation carried by
vertex order). -/
structure Feature where
  location : Location
  polygon : List (List Coord)
deriving DecidableEq, Repr

/-- `Feature.Encode` from features.go: `<len><location json>` then
`<len><polygon>`, each length a little-endian `uint32`. -/
def Feature.Encode (f : Feature) : List Byte :=
  let locBuf := jsonMarshalLocation f.location
  let polyBuf := s2PolygonEncode f.polygon
  le32 locBuf.length ++ locBuf ++ (le32 polyBuf.length ++ polyBuf)

/-- The decode errors of `Feature.Decode`, one per wrapping site in the
source; only the first length read keeps `io.EOF` unconverted. -/
inductive FeatErr
  | readLocationLength (e : IOErr)
  | readLocation (e : IOErr)
  | decodeLocation (e : IOErr)
  | readPolygonLength (e : IOErr)
  | readPolygon (e : IOErr)
  | decodePolygon (e : IOErr)
deriving DecidableEq, Repr

/-- The I/O error a wrapped decode error carries. -/
def FeatErr.inner : FeatErr → IOErr
  | .readLocationLength e => e
  | .readLocation e => e
  | .decodeLocation e => e
  | .readPolygonLength e => e
  | .readPolygon e => e
  | .decodePolygon e => e

/-- `errors.Is(err, io.EOF)` on a wrapped decode error. -/
def FeatErr.isEOF (e : FeatErr) : Bool := e.inner = .eof

/-- One step of `Feature.Decode`: on failure wrap the I/O error, on
success continue (Go's `if err != nil { return wrapped }`). -/
def stepE {α β : Type} (x : Except IOErr α) (wrap : IOErr → FeatErr)
    (k : α → Except FeatErr β) : Except FeatErr β :=
  match x with
  | .error e => .error (wrap e)
  | .ok a => k a

/-- `Feature.Decode` from features.go: location length, location bytes,
location unmarshal, polygon length, polygon bytes, polygon decode — each
failure wrapped with its site, all but the first length read converting
`io.EOF` to `io.ErrUnexpectedEOF`. -/
def Feature.Decode (bs : List Byte) : Except FeatErr (Feature × List Byte) :=
  stepE (readU32 bs) (fun e => .readLocationLength e) fun p1 =>
  stepE (readFull p1.1 p1.2) (fun e => .readLocation (unexpectedEOF e)) fun p2 =>
  stepE (jsonUnmarshalLocation p2.1) (fun e => .decodeLocation (unexpectedEOF e)) fun loc =>
  stepE (readU32 p2.2) (fun e => .readPolygonLength (unexpectedEOF e)) fun p3 =>
  stepE (readFull p3.1 p3.2) (fun e => .readPolygon (unexpectedEOF e)) fun p4 =>
  stepE (s2PolygonDecode p4.1) (fun e => .decodePolygon (unexpectedEOF e)) fun poly =>
  .ok (⟨loc, poly⟩, p4.2)

/-- `FeatureCollection.Encode` from features.go: each feature's record in
order, back to back. -/
def FeatureCollection.Encode : List Feature → List Byte
  | [] => []
  | f :: fs => Feature.Encode f ++ FeatureCollection.Encode fs

theorem readU32_ok_length {bs rest : List Byte} {n : Nat}
    (h : readU32 bs = .ok (n, rest)) : rest.length + 4 = bs.length := by
  rcases bs with _ | ⟨b0, _ | ⟨b1, _ | ⟨b2, _ | ⟨b3, tl⟩⟩⟩⟩ <;>
    simp [readU32] at h
  obtain ⟨-, rfl⟩ := h
  simp

theorem readFull_ok_length {n : Nat} {bs buf rest : List Byte}
    (h : readFull n bs = .ok (buf, rest)) : rest.length ≤ bs.length := by
  unfold readFull at h
  split at h
  · obtain ⟨-, rfl⟩ := Prod.mk.injEq .. ▸ (Except.ok.injEq .. ▸ h :)
    exact le_refl _
  · split at h
    · cases h
    · split at h
      · cases h
      · simp only [Except.ok.injEq, Prod.mk.injEq] at h
        obtain ⟨-, rfl⟩ := h
        simp [List.length_drop]

theorem stepE_ok_iff {α β : Type} {x : Except IOErr α} {wrap : IOErr → FeatErr}
    {k : α → Except FeatErr β} {r : β} :
    stepE x wrap k = .ok r ↔ ∃ a, x = .ok a ∧ k a = .ok r := by
  cases x <;> simp [stepE]

theorem Feature.Decode_ok_length {bs : List Byte} {fr : Feature × List Byte}
    (h : Feature.Decode bs = .ok fr) : fr.2.length < bs.length := by
  unfold Feature.Decode at h
  rw [stepE_ok_iff] at h
  obtain ⟨p1, h1, h⟩ := h
  rw [stepE_ok_iff] at h
  obtain ⟨p2, h2, h⟩ := h
  rw [stepE_ok_iff] at h
  obtain ⟨loc, h3, h⟩ := h
  rw [stepE_ok_iff] at h
  obtain ⟨p3, h4, h⟩ := h
  rw [stepE_ok_iff] at h
  obtain ⟨p4, h5, h⟩ := h
  rw [stepE_ok_iff] at h
  obtain ⟨poly, h6, h⟩ := h
  simp only [Except.ok.injEq] at h
  subst h
  have l1 := readU32_ok_length ((Prod.mk.eta (p := p1)) ▸ h1)
  have l2 := readFull_ok_length ((Prod.mk.eta (p := p2)) ▸ h2)
  have l4 := readU32_ok_length ((Prod.mk.eta (p := p3)) ▸ h4)
  have l5 := readFull_ok_length ((Prod.mk.eta (p := p4)) ▸ h5)
  simp only
  omega

/-- `LoadEncoded` from features.go, with the record index threaded: read
features until the source is exhausted; an error whose chain is `io.EOF`
(possible only at the very first length read of a record) ends the stream
cleanly, every other error aborts tagged with the failing record's
index. -/
def LoadEncodedFrom (bs : List Byte) (i : Nat) :
    Except (Nat × FeatErr) (List Feature) :=
  match h : Feature.Decode bs with
  | .error e => if e.isEOF then .ok [] else .error (i, e)
  | .ok fr =>
    match LoadEncodedFrom fr.2 (i + 1) with
    | .error err => .error err
    | .ok fs => .ok (fr.1 :: fs)
termination_by bs.length
decreasing_by exact Feature.Decode_ok_length h

/-- `LoadEncoded` from features.go: decode the whole stream starting at
record index 0. -/
def LoadEncoded (bs : List Byte) : Except (Nat × FeatErr) (List Feature) :=
  LoadEncodedFrom bs 0

theorem LoadEncodedFrom_error {bs : List Byte} {i : Nat} {e : FeatErr}
    (h : Feature.Decode bs = .error e) :
    LoadEncodedFrom bs i = if e.isEOF then .ok [] else .error (i, e) := by
  rw [LoadEncodedFrom]
  split
  · next e' he' =>
      rw [h] at he'
      injection he' with he''
      rw [he'']
  · next fr hfr => rw [h] at hfr; cases hfr

theorem LoadEncodedFrom_ok {bs : List Byte} {i : Nat} {fr : Feature × List Byte}
    (h : Feature.Decode bs = .ok fr) :
    LoadEncodedFrom bs i =
      match LoadEncodedFrom fr.2 (i + 1) with
      | .error err => .error err
      | .ok fs => .ok (fr.1 :: fs) := by
  rw [LoadEncodedFrom]
  split
  · next e' he' => rw [h] at he'; cases he'
  · next fr' hfr' =>
      rw [h] at hfr'
      injection hfr' with he
      rw [he]

theorem readU32_le32 {n : Nat} (h : n < 2 ^ 32) (rest : List Byte) :
    readU32 (le32 n ++ rest) = .ok (n, rest) := by
  have hval : n % 256 + 256 * (n / 256 % 256) + 2 ^ 16 * (n / 2 ^ 16 % 256) +
      2 ^ 24 * (n / 2 ^ 24 % 256) = n := by omega
  simp only [le32, List.cons_append, List.nil_append, readU32, hval]

theorem readFull_exact (buf rest : List Byte) :
    readFull buf.length (buf ++ rest) = .ok (buf, rest) := by
  rcases buf with _ | ⟨b, buf'⟩
  · simp [readFull]
  · rw [readFull, if_neg (by simp), if_neg (by simp),
      if_neg (by simp only [List.length_append, List.length_cons]; omega),
      List.take_left, List.drop_left]

theorem decodeString_encodeString (s : String) (rest : List Byte) :
    decodeString (encodeString s ++ rest) = some (s, rest) := by
  have hmap : (s.data.map Char.toNat).map Char.ofNat = s.data := by
    rw [List.map_map,
      show Char.ofNat ∘ Char.toNat = id from funext Char.ofNat_toNat,
      List.map_id]
  have hlen : (s.data.map Char.toNat).length = s.data.length :=
    List.length_map _ _
  simp only [encodeString, List.cons_append, decodeString]
  rw [if_neg (by simp only [List.length_append, List.length_map]; omega)]
  rw [← hlen, List.take_left, List.drop_left, hmap]

theorem decodeLocationFields_marshal (loc : Location) (rest : List Byte) :
    decodeLocationFields (jsonMarshalLocation loc ++ rest) = some (loc, rest) := by
  simp only [jsonMarshalLocation, List.append_assoc, decodeLocationFields,
    decodeString_encodeString, Option.bind_eq_bind, Option.some_bind]

theorem jsonUnmarshal_marshal (loc : Location) :
    jsonUnmarshalLocation (jsonMarshalLocation loc) = .ok loc := by
  have h := decodeLocationFields_marshal loc []
  rw [List.append_nil] at h
  rw [jsonUnmarshalLocation, h]

theorem decodeInt_encodeInt (i : ℤ) (rest : List Byte) :
    decodeInt (encodeInt i ++ rest) = some (i, rest) := by
  by_cases h : i < 0
  · have hv : -((i.natAbs : Nat) : ℤ) = i := by omega
    simp only [encodeInt, if_pos h, List.cons_append, List.nil_append,
      decodeInt, if_pos rfl, if_true, hv]
  · have hv : ((i.natAbs : Nat) : ℤ) = i := by omega
    simp only [encodeInt, if_neg h, List.cons_append, List.nil_append,
      decodeInt, if_neg (by decide : ¬(0 : Byte) = 1), if_false, hv]

theorem decodeRat_encodeRat (q : ℚ) (rest : List Byte) :
    decodeRat (encodeRat q ++ rest) = some (q, rest) := by
  simp only [encodeRat, List.append_assoc, List.cons_append, List.nil_append,
    decodeRat, decodeInt_encodeInt, Option.bind_eq_bind, Option.some_bind,
    Rat.mkRat_self]

theorem decodeCoord_encodeCoord (c : Coord) (rest : List Byte) :
    decodeCoord (encodeCoord c ++ rest) = some (c, rest) := by
  simp only [encodeCoord, List.append_assoc, decodeCoord,
    decodeRat_encodeRat, Option.bind_eq_bind, Option.some_bind]

theorem decodeN_encodeListBy {α : Type}
    {dec : List Byte → Option (α × List Byte)} {enc : α → List Byte}
    (hdec : ∀ (x : α) (r : List Byte), dec (enc x ++ r) = some (x, r)) :
    ∀ (xs : List α) (rest : List Byte),
      decodeN dec xs.length (encodeListBy enc xs ++ rest) = some (xs, rest) := by
  intro xs
  induction xs with
  | nil => intro rest; simp [encodeListBy, decodeN]
  | cons x xs ih =>
      intro rest
      simp only [encodeListBy, List.append_assoc, List.length_cons, decodeN,
        hdec, Option.bind_eq_bind, Option.some_bind, ih]

theorem decodeCounted_encodeCounted {α : Type}
    {dec : List Byte → Option (α × List Byte)} {enc : α → List Byte}
    (hdec : ∀ (x : α) (r : List Byte), dec (enc x ++ r) = some (x, r))
    (xs : List α) (rest : List Byte) :
    decodeCounted dec (encodeCounted enc xs ++ rest) = some (xs, rest) := by
  simp only [encodeCounted, List.cons_append, decodeCounted]
  exact decodeN_encodeListBy hdec xs rest

theorem s2PolygonDecode_encode (p : List (List Coord)) :
    s2PolygonDecode (s2PolygonEncode p) = .ok p := by
  have h := decodeCounted_encodeCounted
    (fun l r => decodeCounted_encodeCounted decodeCoord_encodeCoord l r) p []
  rw [List.append_nil] at h
  rw [s2PolygonDecode, s2PolygonEncode, h]

theorem stepE_ok_apply {α β : Type} (a : α) (wrap : IOErr → FeatErr)
    (k : α → Except FeatErr β) : stepE (.ok a) wrap k = k a := rfl

theorem Feature.Decode_encode (f : Feature) (rest : List Byte)
    (h1 : (jsonMarshalLocation f.location).length < 2 ^ 32)
    (h2 : (s2PolygonEncode f.polygon).length < 2 ^ 32) :
    Feature.Decode (Feature.Encode f ++ rest) = .ok (f, rest) := by
  rw [Feature.Encode, Feature.Decode]
  simp only [List.append_assoc]
  rw [readU32_le32 h1, stepE_ok_apply]
  simp only
  rw [readFull_exact, stepE_ok_apply]
  simp only
  rw [jsonUnmarshal_marshal, stepE_ok_apply]
  rw [readU32_le32 h2, stepE_ok_apply]
  simp only
  rw [readFull_exact, stepE_ok_apply]
  simp only
  rw [s2PolygonDecode_encode, stepE_ok_apply]

/-- C7: encoding a Feature to its length-prefixed binary record and
decoding that record yields back exactly the original Feature with the
whole record consumed — in particular a Location whose ten string fields
equal the original's, and a polygon with the same loop count, the same
vertex list (hence vertex count) per loop, and the same loop orientations
(carried by vertex order). -/
theorem feature_roundtrip (f : Feature)
    (h1 : (jsonMarshalLocation f.location).length < 2 ^ 32)
    (h2 : (s2PolygonEncode f.polygon).length < 2 ^ 32) :
    Feature.Decode (Feature.Encode f) = .ok (f, []) := by
  have h := Feature.Decode_encode f [] h1 h2
  rwa [List.append_nil] at h

/-- A concrete instance of C7. -/
theorem feature_roundtrip_witness :
    Feature.Decode (Feature.Encode ⟨Location.empty, []⟩) =
      .ok (⟨Location.empty, []⟩, []) :=
  feature_roundtrip ⟨Location.empty, []⟩ (by decide) (by decide)

theorem Feature.Decode_truncated {l : Nat} (hl : l < 2 ^ 32)
    {tail : List Byte} (ht : tail.length < l) :
    Feature.Decode (le32 l ++ tail) = .error (.readLocation .unexpEOF) := by
  rw [Feature.Decode]
  rw [readU32_le32 hl, stepE_ok_apply]
  simp only
  have hfull : readFull l tail = .error .eof ∨ readFull l tail = .error .unexpEOF := by
    rw [readFull, if_neg (by omega)]
    by_cases he : tail.isEmpty
    · rw [if_pos he]; exact Or.inl rfl
    · rw [if_neg he, if_pos ht]; exact Or.inr rfl
  rcases hfull with hfull | hfull <;> rw [hfull] <;> rfl

theorem LoadEncodedFrom_stream_truncated (fs : List Feature)
    (hsz : ∀ f ∈ fs, (jsonMarshalLocation f.location).length < 2 ^ 32 ∧
      (s2PolygonEncode f.polygon).length < 2 ^ 32)
    {l : Nat} (hl : l < 2 ^ 32) {tail : List Byte} (ht : tail.length < l) :
    ∀ i, LoadEncodedFrom (FeatureCollection.Encode fs ++ (le32 l ++ tail)) i =
      .error (i + fs.length, .readLocation .unexpEOF) := by
  induction fs with
  | nil =>
      intro i
      rw [FeatureCollection.Encode, List.nil_append,
        LoadEncodedFrom_error (Feature.Decode_truncated hl ht)]
      rw [if_neg (by simp [FeatErr.isEOF, FeatErr.inner])]
      simp
  | cons f fs ih =>
      intro i
      obtain ⟨hf1, hf2⟩ := hsz f (List.mem_cons_self f fs)
      rw [FeatureCollection.Encode, List.append_assoc,
        LoadEncodedFrom_ok (Feature.Decode_encode f _ hf1 hf2)]
      rw [ih (fun g hg => hsz g (List.mem_cons_of_mem f hg)) (i + 1)]
      simp only [List.length_cons]
      have : i + 1 + fs.length = i + (fs.length + 1) := by omega
      rw [this]

theorem LoadEncodedFrom_stream_clean (fs : List Feature)
    (hsz : ∀ f ∈ fs, (jsonMarshalLocation f.location).length < 2 ^ 32 ∧
      (s2PolygonEncode f.polygon).length < 2 ^ 32) :
    ∀ i, LoadEncodedFrom (FeatureCollection.Encode fs) i = .ok fs := by
  induction fs with
  | nil =>
      intro i
      rw [FeatureCollection.Encode,
        LoadEncodedFrom_error (show Feature.Decode [] = .error (.readLocationLength .eof) from rfl)]
      rfl
  | cons f fs ih =>
      intro i
      obtain ⟨hf1, hf2⟩ := hsz f (List.mem_cons_self f fs)
      rw [FeatureCollection.Encode,
        LoadEncodedFrom_ok (Feature.Decode_encode f _ hf1 hf2)]
      rw [ih (fun g hg => hsz g (List.mem_cons_of_mem f hg)) (i + 1)]

/-- C8: the stream decoder consumes records until the byte source is
exhausted — a stream of well-formed records decodes cleanly to exactly
those features — while a record whose 4-byte length header promises more
bytes than follow makes the whole decode fail with an error tagged with
that record's index (the count of records decoded before it), rather than
being treated as a clean end of stream. -/
theorem loadEncoded_truncation_is_error (fs : List Feature)
    (hsz : ∀ f ∈ fs, (jsonMarshalLocation f.location).length < 2 ^ 32 ∧
      (s2PolygonEncode f.polygon).length < 2 ^ 32)
    (l : Nat) (hl : l < 2 ^ 32) (tail : List Byte) (ht : tail.length < l) :
    LoadEncoded (FeatureCollection.Encode fs ++ (le32 l ++ tail)) =
      .error (fs.length, .readLocation .unexpEOF) ∧
    LoadEncoded (FeatureCollection.Encode fs) = .ok fs := by
  constructor
  · rw [LoadEncoded, LoadEncodedFrom_stream_truncated fs hsz hl ht 0]
    simp
  · rw [LoadEncoded, LoadEncodedFrom_stream_clean fs hsz 0]

/-- A concrete instance of C8: one well-formed record followed by a
header promising 5 bytes with only 3 present fails at record index 1. -/
theorem loadEncoded_truncation_is_error_witness :
    LoadEncoded (FeatureCollection.Encode [⟨Location.empty, []⟩] ++
        (le32 5 ++ [1, 2, 3])) =
      .error (1, .readLocation .unexpEOF) ∧
    LoadEncoded (FeatureCollection.Encode [⟨Location.empty, []⟩]) =
      .ok [⟨Location.empty, []⟩] :=
  loadEncoded_truncation_is_error [⟨Location.empty, []⟩] (by decide) 5
    (by decide) [1, 2, 3] (by decide)
